import Mathlib

/-!
Shallow embedding of the process-explorer application
(src/process_explorer/main.py) and verification of its specification.

The embedding models the pure logic of the program:
the per-process info records produced by psutil process_iter, the dict
of processes built in ProcessExplorerWindow._refresh, the tree store
built by add_proc and add_tree, the search filter _filter_func, the
signal loop _signal_selected, the auto-refresh state machine made of
_toggle_auto and _auto_refresh_cb together with the GLib timer
semantics (a recurring source keeps firing while its callback returns
True), and the welcome-dialog preference handling of
ProcessExplorerApp.do_activate, _load_wlc_settings, _save_wlc_settings.

Numeric store columns (CPU percent, MEM percent, RSS MB) are modelled
with exact rationals; division of the RSS byte count by 1024 twice is
exact in binary floating point as well, so no rounding behaviour is
lost by this choice.
-/

namespace ProcessExplorer

/-- The psutil memory_info record; only the rss field (bytes) is read. -/
structure MemInfo where
  rss : Nat
deriving DecidableEq

/-- One entry of the per-process info dict yielded by psutil
process_iter with the attrs requested at main.py line 141. psutil
populates every requested key; a value can still be Python None when
the per-attribute read failed, which is modelled as none. The pid is
always available because it comes from the process table itself. -/
structure ProcInfo where
  pid : Nat
  ppid : Option Nat
  name : Option String
  username : Option String
  cpu_percent : Option Rat
  memory_percent : Option Rat
  memory_info : Option MemInfo
  status : Option String
deriving DecidableEq

/-- The per-process failures caught in _refresh and _signal_selected. -/
inductive PsErr where
  | noSuchProcess
  | accessDenied
deriving DecidableEq

/-- Python dict assignment procs[info.pid] = info: an existing key is
overwritten in place, a new key is appended at the end. -/
def upsert (procs : List ProcInfo) (info : ProcInfo) : List ProcInfo :=
  if procs.any (fun q => q.pid == info.pid) then
    procs.map (fun q => if q.pid == info.pid then info else q)
  else procs ++ [info]

/-- One iteration of the enumeration loop in _refresh: reading p.info
either yields a record stored into the dict or raises a caught
psutil error, in which case the dict is left unchanged. -/
def enumStep (procs : List ProcInfo) (r : Except PsErr ProcInfo) : List ProcInfo :=
  match r with
  | Except.ok info => upsert procs info
  | Except.error _ => procs

/-- The dict procs built by the enumeration loop in _refresh. -/
def enumProcs (results : List (Except PsErr ProcInfo)) : List ProcInfo :=
  results.foldl enumStep []

/-- The successfully read process records, in enumeration order. -/
def successes (results : List (Except PsErr ProcInfo)) : List ProcInfo :=
  results.filterMap (fun r => match r with
    | Except.ok info => some info
    | Except.error _ => none)

/-- The Processes field of the stats label: len(procs). -/
def statsProcessCount (results : List (Except PsErr ProcInfo)) : Nat :=
  (enumProcs results).length

/-- Python info.get with key ppid and default 0. -/
def ppidOf (p : ProcInfo) : Nat := p.ppid.getD 0

/-- Dict lookup procs[k]; the dict holds at most one record per pid. -/
def lookupPid (procs : List ProcInfo) (k : Nat) : Option ProcInfo :=
  procs.find? (fun p => p.pid == k)

/-- The children map of _refresh: for each pid of the dict, the list of
pids whose ppid equals it, in dict iteration order. -/
def childrenOf (procs : List ProcInfo) (k : Nat) : List Nat :=
  (procs.filter (fun p => ppidOf p == k)).map (fun p => p.pid)

/-- The roots list of _refresh: pids whose ppid is not a key of the
dict, in dict iteration order. -/
def rootsOf (procs : List ProcInfo) : List Nat :=
  (procs.filter (fun p => (lookupPid procs (ppidOf p)).isNone)).map (fun p => p.pid)

def qmark : String := "?"

def emptyStr : String := ""

/-- Python x or d on an optional string value: None and the empty
string are falsy and fall back to the default. -/
def pyOrStr (x : Option String) (d : String) : String :=
  match x with
  | none => d
  | some s => if s = emptyStr then d else s

/-- Python x or d on an optional number: None and 0 are falsy and fall
back to the default. -/
def pyOrQ (x : Option Rat) (d : Rat) : Rat :=
  match x with
  | none => d
  | some q => if q = 0 then d else q

/-- Python (info.get(memory_info) and info[memory_info].rss or 0):
the rss byte count, or 0 when memory_info is missing. -/
def rssBytes (info : ProcInfo) : Nat :=
  match info.memory_info with
  | none => 0
  | some m => m.rss

/-- Nearest integer with ties going to the even neighbour: the rounding
used by Python round. -/
def roundHalfEven (q : Rat) : Int :=
  let f := Int.floor q
  let frac := q - (f : Rat)
  if frac < (1 : Rat)/2 then f
  else if (1 : Rat)/2 < frac then f + 1
  else if f % 2 = 0 then f else f + 1

/-- Python round(x, 1). -/
def pyRound1 (q : Rat) : Rat := (roundHalfEven (q * 10) : Rat) / 10

/-- One store row with the eight columns appended by add_proc:
PID, Name, User, CPU percent, MEM percent, RSS MB, Status, PPID.
The Name and Status columns receive the dict value directly (the get
defaults never fire because process_iter populates every requested
key), so a failed per-attribute read is stored as none. -/
structure Row where
  pid : Nat
  name : Option String
  user : String
  cpu : Rat
  mem : Rat
  rssMB : Rat
  status : Option String
  ppid : Nat
deriving DecidableEq

/-- The row built by add_proc for one info record. -/
def mkRow (info : ProcInfo) : Row :=
  { pid := info.pid
    name := info.name
    user := pyOrStr info.username qmark
    cpu := pyOrQ info.cpu_percent 0
    mem := pyOrQ info.memory_percent 0
    rssMB := pyRound1 (((rssBytes info : Rat)) / 1024 / 1024)
    status := info.status
    ppid := ppidOf info }

/-- One tree-store node: its row and the pid of its parent node
(none for a top-level node). Node identity by pid is faithful because
each pid is appended at most once per refresh. -/
structure Entry where
  row : Row
  parent : Option Nat
deriving DecidableEq

/-- The recursion add_tree of _refresh, producing the flat list of
store nodes of the subtree rooted at the given pid. When the pid is
not a dict key, add_proc returns None and the children are appended at
top level, mirroring it = None in the source. The fuel argument only
bounds the recursion depth; buildStore passes enough fuel for every
node whose ancestor chain terminates. -/
def addTree (procs : List ProcInfo) : Nat → Option Nat → Nat → List Entry
  | 0, _, _ => []
  | f+1, par, pid =>
    match lookupPid procs pid with
    | some info =>
      Entry.mk (mkRow info) par ::
        (childrenOf procs pid).flatMap (fun c => addTree procs f (some pid) c)
    | none =>
      (childrenOf procs pid).flatMap (fun c => addTree procs f none c)

/-- Python sorted(roots): ascending order. -/
def sortedRoots (procs : List ProcInfo) : List Nat :=
  List.insertionSort (fun a b => a ≤ b) (rootsOf procs)

/-- The whole tree store rebuilt by _refresh from the dict:
add_tree is run on every root in ascending pid order. -/
def buildStore (procs : List ProcInfo) : List Entry :=
  (sortedRoots procs).flatMap (fun r => addTree procs procs.length none r)

/-- The pids of the nodes of the rebuilt store. -/
def storePids (procs : List ProcInfo) : List Nat :=
  (buildStore procs).map (fun e => e.row.pid)

/-- Whether the parent chain starting at pid leaves the dict within the
given number of upward steps. A record caught in a ppid cycle never
escapes for any bound. -/
def escapesIn (procs : List ProcInfo) : Nat → Nat → Bool
  | 0, _ => false
  | f+1, pid =>
    match lookupPid procs pid with
    | none => false
    | some info =>
      match lookupPid procs (ppidOf info) with
      | none => true
      | some _ => escapesIn procs f (ppidOf info)

/-- ancChain d a p: climbing exactly d parent steps from p reaches a. -/
def ancChain (procs : List ProcInfo) : Nat → Nat → Nat → Bool
  | 0, a, p => a == p
  | d+1, a, p =>
    match lookupPid procs p with
    | none => false
    | some info => ancChain procs d a (ppidOf info)

/-- The parent pid recorded for a node by add_tree: none when the ppid
is not a dict key (the record is a root), otherwise the ppid itself. -/
def parentFor (procs : List ProcInfo) (p : ProcInfo) : Option Nat :=
  match lookupPid procs (ppidOf p) with
  | none => none
  | some _ => some (ppidOf p)

/-- A record with pid 0 and nothing else, used as unreachable fallback. -/
def fallbackInfo : ProcInfo :=
  { pid := 0
    ppid := none
    name := none
    username := none
    cpu_percent := none
    memory_percent := none
    memory_info := none
    status := none }

/-- The row belonging to a store pid: the row of the dict record with
that pid. The fallback branch is unreachable on store pids. -/
def rowOfPid (procs : List ProcInfo) (k : Nat) : Row :=
  match lookupPid procs k with
  | some i => mkRow i
  | none => mkRow fallbackInfo

/-- Prefix test: the needle starts the haystack. -/
def firstMatch : List Char → List Char → Bool
  | [], _ => true
  | _ :: _, [] => false
  | a :: as, b :: bs => a == b && firstMatch as bs

/-- Occurrence test behind the Python expression s in t. -/
def occursIn (needle : List Char) : List Char → Bool
  | [] => needle.isEmpty
  | b :: bs => firstMatch needle (b :: bs) || occursIn needle bs

/-- Python substring containment s in t. -/
def pyIn (needle hay : String) : Bool := occursIn needle.data hay.data

/-- The visibility predicate _filter_func evaluated on one store row.
The or-empty guard applies to the Name column, which can hold a NULL
value; the User column always holds a string. -/
def filterFunc (searchText : String) (r : Row) : Bool :=
  if searchText = emptyStr then true
  else
    let name := (pyOrStr r.name emptyStr).toLower
    let user := r.user.toLower
    let pid := toString r.pid
    let s := searchText.toLower
    pyIn s name || pyIn s user || pyIn s pid

/-- The loop of _signal_selected over the selected pids: sending the
signal either succeeds or raises a caught error, in which case the pid
is skipped and the loop continues. The result lists the pids to which
the signal was actually delivered, in selection order. -/
def signalSelected (send : Nat → Except PsErr Unit) : List Nat → List Nat
  | [] => []
  | pid :: rest =>
    match send pid with
    | Except.ok _ => pid :: signalSelected send rest
    | Except.error _ => signalSelected send rest

/-- The refresh-related UI state: the _auto_refresh flag, whether the
recurring 3-second GLib source installed in the constructor is still
installed, and how many tree rebuilds have run. -/
structure UIState where
  autoRefresh : Bool
  timerActive : Bool
  refreshCount : Nat
deriving DecidableEq

/-- The events that touch this state: the Auto-refresh toggle handler
_toggle_auto, a firing of the recurring timer running
_auto_refresh_cb, and the manual refresh button calling _refresh. -/
inductive UIEvent where
  | toggleAuto (active : Bool)
  | timerTick
  | manualRefresh
deriving DecidableEq

/-- One event step. A timer firing only happens while the source is
installed; _auto_refresh_cb rebuilds the tree only when _auto_refresh
is set and always returns True, which keeps the source installed
(GLib removes a source whose callback returns False). _toggle_auto
only stores the new flag value. -/
def step (s : UIState) : UIEvent → UIState
  | UIEvent.toggleAuto b => { s with autoRefresh := b }
  | UIEvent.timerTick =>
    if s.timerActive then
      { s with
        refreshCount := if s.autoRefresh then s.refreshCount + 1 else s.refreshCount,
        timerActive := true }
    else s
  | UIEvent.manualRefresh => { s with refreshCount := s.refreshCount + 1 }

/-- A sequence of events. -/
def run (s : UIState) (evs : List UIEvent) : UIState := evs.foldl step s

/-- The persisted welcome preference record of welcome.json. -/
structure WlcSettings where
  welcome_shown : Bool
deriving DecidableEq

/-- _load_wlc_settings: read the preference file if it exists, else the
default record with the flag unset. The file system is modelled as the
optional current content of welcome.json. -/
def loadWlcSettings (file : Option WlcSettings) : WlcSettings :=
  match file with
  | some s => s
  | none => { welcome_shown := false }

/-- _save_wlc_settings: the file now holds the record. -/
def saveWlcSettings (s : WlcSettings) : Option WlcSettings := some s

def initName : String := "__init__"

def doActivateName : String := "do_activate"

def doStartupName : String := "do_startup"

def showWelcomeName : String := "_show_welcome"

/-- The attribute names bound by the class body of ProcessExplorerApp
(main.py lines 259 to 277). The functions _show_welcome and
_on_welcome_close are NOT among them: in the source they sit inside
the outer conditional on the module name, after the call to main, so
they are never bound as attributes of the class or of its instances. -/
def appAttrs : List String := [initName, doActivateName, doStartupName]

/-- A raised Python exception. -/
inductive PyExc where
  | attributeError (name : String)
deriving DecidableEq

/-- The welcome logic of do_activate: load the settings; when the flag
is unset, call self._show_welcome, which performs an attribute lookup
on the instance. ok false means no dialog was shown, ok true would
mean the dialog was presented, error is a raised AttributeError. -/
def doActivateWelcome (file : Option WlcSettings) : Except PyExc Bool :=
  let s := loadWlcSettings file
  if s.welcome_shown then Except.ok false
  else if appAttrs.contains showWelcomeName then Except.ok true
  else Except.error (PyExc.attributeError showWelcomeName)

/-- The intended close handler _on_welcome_close on the settings
record: set the flag and save. -/
def onWelcomeClose (s : WlcSettings) : WlcSettings := { s with welcome_shown := true }

/-! Concrete fixtures used by witnesses and counterexamples. -/

def systemdStr : String := "systemd"

def rootStr : String := "root"

def bashStr : String := "bash"

def sleepingStr : String := "sleeping"

def searchBas : String := "BAs"

/-- A root record: its ppid 0 names no pid of the snapshot. -/
def infoInit : ProcInfo :=
  { pid := 1
    ppid := some 0
    name := some systemdStr
    username := some rootStr
    cpu_percent := some 1
    memory_percent := some 2
    memory_info := some { rss := 3407872 }
    status := some sleepingStr }

/-- A child record of pid 1. -/
def infoBash : ProcInfo :=
  { pid := 2
    ppid := some 1
    name := some bashStr
    username := none
    cpu_percent := none
    memory_percent := some 2
    memory_info := none
    status := none }

/-- A record with every optional attribute missing. -/
def infoMissing : ProcInfo :=
  { pid := 3
    ppid := some 1
    name := none
    username := none
    cpu_percent := none
    memory_percent := none
    memory_info := none
    status := none }

/-- A two-record snapshot with one root and one child. -/
def procsSmall : List ProcInfo := [infoInit, infoBash]

/-- A record that is its own parent. -/
def infoSelf : ProcInfo := { infoMissing with pid := 5, ppid := some 5 }

/-- A snapshot whose only record is its own parent. -/
def procsSelfCycle : List ProcInfo := [infoSelf]

def infoCycA : ProcInfo := { infoMissing with pid := 7, ppid := some 8 }

def infoCycB : ProcInfo := { infoMissing with pid := 8, ppid := some 7 }

/-- A snapshot holding a mutual parent cycle between pids 7 and 8. -/
def procsMutualCycle : List ProcInfo := [infoCycA, infoCycB]

/-- Enumeration outcome with one denied process between two readable ones. -/
def resultsSmall : List (Except PsErr ProcInfo) :=
  [Except.ok infoInit, Except.error PsErr.accessDenied, Except.ok infoBash]

/-- A send function that fails with AccessDenied on pid 3 only. -/
def sendDeny3 (pid : Nat) : Except PsErr Unit :=
  if pid = 3 then Except.error PsErr.accessDenied else Except.ok ()

/-- The UI state right after the constructor: auto-refresh on, the
recurring timer installed, counting rebuilds from zero. -/
def uiInit : UIState := { autoRefresh := true, timerActive := true, refreshCount := 0 }

/-! Substring machinery for the search filter. -/

theorem firstMatch_iff (n h : List Char) : firstMatch n h = true ↔ ∃ t, n ++ t = h := by
  induction n generalizing h with
  | nil => simp [firstMatch]
  | cons a as ih =>
    cases h with
    | nil => simp [firstMatch]
    | cons b bs =>
      simp [firstMatch, Bool.and_eq_true, beq_iff_eq, ih, List.cons_append,
        List.cons.injEq, exists_and_left]

theorem occursIn_iff (n h : List Char) : occursIn n h = true ↔ ∃ u t, u ++ n ++ t = h := by
  induction h with
  | nil =>
    simp only [occursIn, List.isEmpty_iff]
    constructor
    · rintro rfl; exact ⟨[], [], rfl⟩
    · rintro ⟨u, t, hu⟩
      rcases List.append_eq_nil.mp hu with ⟨hu1, ht⟩
      exact (List.append_eq_nil.mp hu1).2
  | cons b bs ih =>
    simp only [occursIn, Bool.or_eq_true, firstMatch_iff, ih]
    constructor
    · rintro (⟨t, ht⟩ | ⟨u, t, ht⟩)
      · exact ⟨[], t, by simpa using ht⟩
      · exact ⟨b :: u, t, by simp [ht]⟩
    · rintro ⟨u, t, ht⟩
      cases u with
      | nil => exact Or.inl ⟨t, by simpa using ht⟩
      | cons x xs =>
        have hx : x = b ∧ xs ++ (n ++ t) = bs := by simpa using ht
        exact Or.inr ⟨xs, t, by simp [hx.2]⟩

theorem pyIn_iff (n h : String) : pyIn n h = true ↔ ∃ u t, u ++ n.data ++ t = h.data :=
  occursIn_iff n.data h.data

/-- Claim C9: with the empty search text the filter accepts every row,
so an empty search shows the full tree whatever the row holds. -/
theorem empty_search_accepts_all (r : Row) : filterFunc emptyStr r = true := by
  simp [filterFunc]

/-- Claim C2: for a non-empty search text the filter accepts a row
exactly when the lower-cased search text occurs inside the lower-cased
name, the lower-cased user, or the decimal rendering of the pid; in
particular only matching rows pass the filter. -/
theorem filter_accepts_iff (searchText : String) (r : Row)
    (h : searchText ≠ emptyStr) :
    filterFunc searchText r = true ↔
      ((∃ u t, u ++ searchText.toLower.data ++ t = (pyOrStr r.name emptyStr).toLower.data) ∨
       (∃ u t, u ++ searchText.toLower.data ++ t = r.user.toLower.data) ∨
       (∃ u t, u ++ searchText.toLower.data ++ t = (toString r.pid).data)) := by
  simp only [filterFunc, if_neg h, Bool.or_eq_true, pyIn_iff]
  exact or_assoc

/-- Witness for claim C2 at a concrete row and search text. -/
theorem filter_accepts_iff_witness :
    filterFunc searchBas (mkRow infoBash) = true ↔
      ((∃ u t, u ++ searchBas.toLower.data ++ t = (pyOrStr (mkRow infoBash).name emptyStr).toLower.data) ∨
       (∃ u t, u ++ searchBas.toLower.data ++ t = (mkRow infoBash).user.toLower.data) ∨
       (∃ u t, u ++ searchBas.toLower.data ++ t = (toString (mkRow infoBash).pid).data)) :=
  filter_accepts_iff searchBas (mkRow infoBash) (by decide)

/-! Enumeration and the process count. -/

theorem enumProcs_eq_foldl_successes (results : List (Except PsErr ProcInfo))
    (acc : List ProcInfo) :
    results.foldl enumStep acc = (successes results).foldl upsert acc := by
  induction results generalizing acc with
  | nil => rfl
  | cons r rs ih =>
    cases r with
    | ok info => simp [successes, enumStep, List.filterMap_cons, ih]
    | error e => simp [successes, enumStep, List.filterMap_cons, ih]

theorem foldl_upsert_nodup (xs : List ProcInfo) (acc : List ProcInfo)
    (h : ((acc ++ xs).map (fun p => p.pid)).Nodup) :
    xs.foldl upsert acc = acc ++ xs := by
  induction xs generalizing acc with
  | nil => simp
  | cons x xs ih =>
    have hnotin : x.pid ∉ acc.map (fun p => p.pid) := by
      simp only [List.map_append, List.nodup_append] at h
      intro hmem
      exact h.2.2 hmem (by simp)
    have hx : (acc.any (fun q => q.pid == x.pid)) = false := by
      rw [List.any_eq_false]
      intro q hq
      simp only [beq_iff_eq]
      intro hqe
      exact hnotin (hqe ▸ List.mem_map_of_mem (fun p => p.pid) hq)
    rw [List.foldl_cons]
    have hup : upsert acc x = acc ++ [x] := by simp [upsert, hx]
    rw [hup, ih (acc ++ [x]) (by simpa using h)]
    simp

/-- Claim C4: the Processes count of the stats label equals the number
of records that survived per-process error filtering during the poll.
The hypothesis states snapshot well-formedness: one record per pid, as
psutil produces. -/
theorem process_count_matches_enumeration (results : List (Except PsErr ProcInfo))
    (h : ((successes results).map (fun p => p.pid)).Nodup) :
    statsProcessCount results = (successes results).length := by
  unfold statsProcessCount enumProcs
  rw [enumProcs_eq_foldl_successes, foldl_upsert_nodup _ _ (by simpa using h)]
  simp

/-- Witness for claim C4 at a concrete poll outcome. -/
theorem process_count_matches_enumeration_witness :
    statsProcessCount resultsSmall = (successes resultsSmall).length :=
  process_count_matches_enumeration resultsSmall (by decide)

/-- Claim C5: a failing process is skipped while the loop continues
with all remaining processes. The enumeration dict is unchanged by an
error anywhere in the iteration; the signal loop delivers the signal
to exactly the selected pids whose send succeeds, in order, and a pid
whose send fails receives nothing. Both operations are total
functions of the model: no exception escapes. -/
theorem per_process_failures_skipped :
    (∀ (xs ys : List (Except PsErr ProcInfo)) (e : PsErr),
      enumProcs (xs ++ Except.error e :: ys) = enumProcs (xs ++ ys)) ∧
    (∀ (send : Nat → Except PsErr Unit) (pids : List Nat),
      signalSelected send pids =
        pids.filter (fun pid => match send pid with
          | Except.ok _ => true
          | Except.error _ => false)) ∧
    (∀ (send : Nat → Except PsErr Unit) (pids : List Nat) (pid : Nat) (e : PsErr),
      send pid = Except.error e → pid ∉ signalSelected send pids) := by
  have hfilter : ∀ (send : Nat → Except PsErr Unit) (pids : List Nat),
      signalSelected send pids =
        pids.filter (fun pid => match send pid with
          | Except.ok _ => true
          | Except.error _ => false) := by
    intro send pids
    induction pids with
    | nil => rfl
    | cons p ps ih =>
      cases hs : send p with
      | ok u => simp [signalSelected, hs, List.filter_cons, ih]
      | error e => simp [signalSelected, hs, List.filter_cons, ih]
  refine ⟨?_, hfilter, ?_⟩
  · intro xs ys e
    unfold enumProcs
    rw [List.foldl_append, List.foldl_append, List.foldl_cons]
    rfl
  · intro send pids pid e hsend hmem
    rw [hfilter] at hmem
    rcases List.mem_filter.mp hmem with ⟨_, hacc⟩
    rw [hsend] at hacc
    exact absurd hacc (by simp)

/-- Witness for claim C5: a denied process in the middle of a poll
changes nothing, and a pid whose signal send is denied is skipped. -/
theorem per_process_failures_skipped_witness :
    enumProcs ([Except.ok infoInit] ++ Except.error PsErr.accessDenied :: [Except.ok infoBash]) =
      enumProcs ([Except.ok infoInit] ++ [Except.ok infoBash]) ∧
    3 ∉ signalSelected sendDeny3 [1, 3, 4] :=
  ⟨per_process_failures_skipped.1 [Except.ok infoInit] [Except.ok infoBash]
      PsErr.accessDenied,
   per_process_failures_skipped.2.2 sendDeny3 [1, 3, 4] 3 PsErr.accessDenied rfl⟩

/-- Claim C6, code defect: on a profile that has never stored the flag,
do_activate raises AttributeError because _show_welcome is not an
attribute of ProcessExplorerApp (its definition sits inside the
module-name conditional after the call to main), so the dialog can
never be shown or dismissed and the flag is never written; yet the
close handler, had it been reachable, would have persisted the flag,
which is what the specification describes. -/
theorem welcome_flag_never_persisted :
    doActivateWelcome none = Except.error (PyExc.attributeError showWelcomeName) ∧
    doActivateWelcome (some { welcome_shown := false }) =
      Except.error (PyExc.attributeError showWelcomeName) ∧
    (∀ s : WlcSettings,
      (loadWlcSettings (saveWlcSettings (onWelcomeClose s))).welcome_shown = true) :=
  ⟨rfl, rfl, fun _ => rfl⟩

/-! Auto-refresh state machine. -/

theorem step_tick_of_auto_off (s : UIState) (h : s.autoRefresh = false) :
    step s UIEvent.timerTick = s := by
  cases s with
  | mk a t c =>
    cases h
    cases t <;> simp [step]

/-- Claim C7: while auto-refresh is off, any run of timer firings
leaves the rebuild count and the flag unchanged, so no periodic tick
rebuilds the tree until the flag is toggled back on; the manual
refresh button still rebuilds unconditionally. -/
theorem auto_refresh_off_stops_rebuilds :
    (∀ (s : UIState) (evs : List UIEvent), s.autoRefresh = false →
      (∀ e ∈ evs, e = UIEvent.timerTick) →
      (run s evs).refreshCount = s.refreshCount ∧ (run s evs).autoRefresh = false) ∧
    (∀ s : UIState, (step s UIEvent.manualRefresh).refreshCount = s.refreshCount + 1) := by
  constructor
  · intro s evs
    induction evs generalizing s with
    | nil => exact fun h _ => ⟨rfl, h⟩
    | cons e evs ih =>
      intro hs he
      have het : e = UIEvent.timerTick := he e (by simp)
      subst het
      have hstep : step s UIEvent.timerTick = s := step_tick_of_auto_off s hs
      have hrun : run s (UIEvent.timerTick :: evs) = run s evs := by
        show run (step s UIEvent.timerTick) evs = run s evs
        rw [hstep]
      rw [hrun]
      exact ih s hs (fun e hmem => he e (by simp [hmem]))
  · intro s; rfl

/-- Witness for claim C7: two timer firings after toggling off leave
the rebuild count alone, while a manual refresh increments it. -/
theorem auto_refresh_off_stops_rebuilds_witness :
    ((run (step uiInit (UIEvent.toggleAuto false))
        [UIEvent.timerTick, UIEvent.timerTick]).refreshCount =
      (step uiInit (UIEvent.toggleAuto false)).refreshCount ∧
     (run (step uiInit (UIEvent.toggleAuto false))
        [UIEvent.timerTick, UIEvent.timerTick]).autoRefresh = false) ∧
    (step uiInit UIEvent.manualRefresh).refreshCount = uiInit.refreshCount + 1 :=
  ⟨auto_refresh_off_stops_rebuilds.1 _ _ (by decide) (by decide),
   auto_refresh_off_stops_rebuilds.2 uiInit⟩

/-- Claim C8 counterexample: disabling auto-refresh does not cancel
the recurring timer source; right after the toggle the source is still
installed and keeps firing. -/
theorem toggle_off_leaves_timer_running :
    (step uiInit (UIEvent.toggleAuto false)).autoRefresh = false ∧
    (step uiInit (UIEvent.toggleAuto false)).timerActive = true ∧
    (step (step uiInit (UIEvent.toggleAuto false)) UIEvent.timerTick).timerActive = true := by
  decide

/-- Claim C8 amended: disabling auto-refresh leaves the recurring
timer source installed; no event of the program ever removes the
source (the callback always returns True), and a tick with the flag
off merely skips the rebuild. -/
theorem timer_never_cancelled :
    (∀ (s : UIState) (b : Bool),
      (step s (UIEvent.toggleAuto b)).timerActive = s.timerActive) ∧
    (∀ (s : UIState) (e : UIEvent),
      s.timerActive = true → (step s e).timerActive = true) ∧
    (∀ s : UIState, s.autoRefresh = false →
      (step s UIEvent.timerTick).refreshCount = s.refreshCount) := by
  refine ⟨fun s b => rfl, ?_, ?_⟩
  · intro s e ht
    cases e with
    | toggleAuto b => exact ht
    | timerTick => simp [step, ht]
    | manualRefresh => exact ht
  · intro s hs
    rw [step_tick_of_auto_off s hs]

/-- Witness for the amended claim C8. -/
theorem timer_never_cancelled_witness :
    (step (step uiInit (UIEvent.toggleAuto false)) UIEvent.timerTick).timerActive = true ∧
    (step (step uiInit (UIEvent.toggleAuto false)) UIEvent.timerTick).refreshCount =
      (step uiInit (UIEvent.toggleAuto false)).refreshCount :=
  ⟨timer_never_cancelled.2.1 _ UIEvent.timerTick (by decide),
   timer_never_cancelled.2.2 _ (by decide)⟩

/-! RSS and percentage rendering. -/

/-- Claim C10: the RSS MB column equals the byte count divided by two
to the twentieth, rounded to one decimal place with the half-to-even
rule of Python round; a missing memory_info renders as 0, and missing
cpu_percent or memory_percent values render as 0. -/
theorem rss_and_percent_rendering (info : ProcInfo) :
    (mkRow info).rssMB = pyRound1 ((rssBytes info : Rat) / 2 ^ 20) ∧
    (info.memory_info = none → (mkRow info).rssMB = 0) ∧
    (info.cpu_percent = none → (mkRow info).cpu = 0) ∧
    (info.memory_percent = none → (mkRow info).mem = 0) := by
  refine ⟨?_, ?_, ?_, ?_⟩
  · show pyRound1 ((rssBytes info : Rat) / 1024 / 1024) = _
    rw [div_div]
    norm_num
  · intro h
    show pyRound1 ((rssBytes info : Rat) / 1024 / 1024) = 0
    simp only [rssBytes, h]
    norm_num [pyRound1, roundHalfEven]
  · intro h
    simp [mkRow, pyOrQ, h]
  · intro h
    simp [mkRow, pyOrQ, h]

/-- Witness for claim C10: a concrete record with 3.25 MB resident
memory, and one with all optional attributes missing. -/
theorem rss_and_percent_rendering_witness :
    (mkRow infoInit).rssMB = pyRound1 ((rssBytes infoInit : Rat) / 2 ^ 20) ∧
    (mkRow infoMissing).rssMB = 0 ∧
    (mkRow infoMissing).cpu = 0 ∧
    (mkRow infoMissing).mem = 0 :=
  ⟨(rss_and_percent_rendering infoInit).1,
   (rss_and_percent_rendering infoMissing).2.1 rfl,
   (rss_and_percent_rendering infoMissing).2.2.1 rfl,
   (rss_and_percent_rendering infoMissing).2.2.2 rfl⟩

/-! Dict lookup facts. -/

theorem lookupPid_mem (procs : List ProcInfo) (k : Nat) (p : ProcInfo)
    (h : lookupPid procs k = some p) : p ∈ procs ∧ p.pid = k :=
  ⟨List.mem_of_find?_eq_some h, by simpa using List.find?_some h⟩

theorem mem_lookupPid :
    ∀ (procs : List ProcInfo), (procs.map (fun p => p.pid)).Nodup →
      ∀ p ∈ procs, lookupPid procs p.pid = some p := by
  intro procs
  induction procs with
  | nil => intro _ p hp; cases hp
  | cons q qs ih =>
    intro hnd p hp
    simp only [List.map_cons, List.nodup_cons] at hnd
    rcases List.mem_cons.mp hp with rfl | hmem
    · unfold lookupPid
      rw [List.find?_cons_of_pos _ (by simp)]
    · have hne : (q.pid == p.pid) = false := by
        simp only [beq_eq_false_iff_ne, ne_eq]
        intro he
        exact hnd.1 (he ▸ List.mem_map_of_mem (fun x => x.pid) hmem)
      unfold lookupPid
      rw [List.find?_cons_of_neg _ (by simp [hne])]
      exact ih hnd.2 p hmem

theorem mem_childrenOf (procs : List ProcInfo) (k c : Nat) :
    c ∈ childrenOf procs k ↔ ∃ p ∈ procs, ppidOf p = k ∧ p.pid = c := by
  simp [childrenOf, List.mem_map, List.mem_filter, beq_iff_eq, and_assoc]

theorem mem_rootsOf (procs : List ProcInfo) (k : Nat) :
    k ∈ rootsOf procs ↔
      ∃ p ∈ procs, p.pid = k ∧ lookupPid procs (ppidOf p) = none := by
  unfold rootsOf
  rw [List.mem_map]
  constructor
  · rintro ⟨p, hmem, rfl⟩
    rcases List.mem_filter.mp hmem with ⟨hp, hnone⟩
    exact ⟨p, hp, rfl, by simpa using hnone⟩
  · rintro ⟨p, hp, rfl, hnone⟩
    exact ⟨p, List.mem_filter.mpr ⟨hp, by simp [hnone]⟩, rfl⟩

theorem rootsOf_nodup (procs : List ProcInfo)
    (hnd : (procs.map (fun p => p.pid)).Nodup) : (rootsOf procs).Nodup := by
  unfold rootsOf
  exact ((List.filter_sublist procs).map _).nodup hnd

theorem sortedRoots_nodup (procs : List ProcInfo)
    (hnd : (procs.map (fun p => p.pid)).Nodup) : (sortedRoots procs).Nodup :=
  ((List.perm_insertionSort _ _).nodup_iff).mpr (rootsOf_nodup procs hnd)

theorem childrenOf_nodup (procs : List ProcInfo)
    (hnd : (procs.map (fun p => p.pid)).Nodup) (k : Nat) :
    (childrenOf procs k).Nodup := by
  unfold childrenOf
  exact ((List.filter_sublist procs).map _).nodup hnd

/-! Parent-chain machinery. -/

theorem ancChain_zero_iff (procs : List ProcInfo) (a p : Nat) :
    ancChain procs 0 a p = true ↔ a = p := by
  simp [ancChain]

theorem escapesIn_eq_step (procs : List ProcInfo) (f k : Nat) (kinfo q : ProcInfo)
    (hl : lookupPid procs k = some kinfo)
    (hpl : lookupPid procs (ppidOf kinfo) = some q) :
    escapesIn procs (f + 1) k = escapesIn procs f (ppidOf kinfo) := by
  simp only [escapesIn, hl, hpl]

theorem ancChain_append (procs : List ProcInfo) :
    ∀ (m n a b c : Nat), ancChain procs m b c = true →
      ancChain procs n a b = true → ancChain procs (m + n) a c = true := by
  intro m
  induction m with
  | zero =>
    intro n a b c hm hn
    rw [ancChain_zero_iff] at hm
    subst hm
    simpa using hn
  | succ m ih =>
    intro n a b c hm hn
    cases hl : lookupPid procs c with
    | none => simp [ancChain, hl] at hm
    | some info =>
      simp only [ancChain, hl] at hm
      rw [Nat.succ_add]
      simp only [ancChain, hl]
      exact ih n a b (ppidOf info) hm hn

theorem ancChain_climb (procs : List ProcInfo) :
    ∀ (d e a b p : Nat), ancChain procs d a p = true →
      ancChain procs (d + e) b p = true → ancChain procs e b a = true := by
  intro d
  induction d with
  | zero =>
    intro e a b p ha hb
    rw [ancChain_zero_iff] at ha
    subst ha
    simpa using hb
  | succ d ih =>
    intro e a b p ha hb
    cases hl : lookupPid procs p with
    | none => simp [ancChain, hl] at ha
    | some info =>
      simp only [ancChain, hl] at ha
      have hb' : ancChain procs (d + e) b (ppidOf info) = true := by
        rw [Nat.succ_add] at hb
        simpa only [ancChain, hl] using hb
      exact ih e a b (ppidOf info) ha hb'

theorem ancChain_peel (procs : List ProcInfo) :
    ∀ (d a p : Nat), ancChain procs (d + 1) a p = true →
      ∃ c cinfo, lookupPid procs c = some cinfo ∧ ppidOf cinfo = a ∧
        ancChain procs d c p = true := by
  intro d
  induction d with
  | zero =>
    intro a p h
    cases hl : lookupPid procs p with
    | none => simp [ancChain, hl] at h
    | some info =>
      simp only [ancChain, hl] at h
      have h' : a = ppidOf info := by simpa using h
      exact ⟨p, info, hl, h'.symm, by simp [ancChain]⟩
  | succ d ih =>
    intro a p h
    cases hl : lookupPid procs p with
    | none => simp [ancChain, hl] at h
    | some info =>
      simp only [ancChain, hl] at h
      rcases ih a (ppidOf info) h with ⟨c, cinfo, hc, hpp, hchain⟩
      refine ⟨c, cinfo, hc, hpp, ?_⟩
      simp only [ancChain, hl]
      exact hchain

theorem cycle_no_escape (procs : List ProcInfo) :
    ∀ (f d k : Nat), ancChain procs (d + 1) k k = true →
      escapesIn procs f k = false := by
  intro f
  induction f with
  | zero => intro d k _; rfl
  | succ f ih =>
    intro d k hcyc
    cases hl : lookupPid procs k with
    | none => simp [escapesIn, hl]
    | some kinfo =>
      have hstep : ancChain procs d k (ppidOf kinfo) = true := by
        simpa only [ancChain, hl] using hcyc
      cases hpl : lookupPid procs (ppidOf kinfo) with
      | none =>
        cases d with
        | zero =>
          rw [ancChain_zero_iff] at hstep
          rw [← hstep, hl] at hpl
          cases hpl
        | succ d' => simp [ancChain, hpl] at hstep
      | some _ =>
        simp only [escapesIn, hl, hpl]
        have hone : ancChain procs 1 (ppidOf kinfo) k = true := by
          simp [ancChain, hl]
        have hcyc' : ancChain procs (d + 1) (ppidOf kinfo) (ppidOf kinfo) = true :=
          ancChain_append procs d 1 (ppidOf kinfo) k (ppidOf kinfo) hstep hone
        exact ih d (ppidOf kinfo) hcyc'

theorem escape_no_cycle (procs : List ProcInfo) (f d k : Nat)
    (hesc : escapesIn procs f k = true) (hcyc : ancChain procs d k k = true) :
    d = 0 := by
  cases d with
  | zero => rfl
  | succ d =>
    rw [cycle_no_escape procs f d k hcyc] at hesc
    cases hesc

theorem escapesIn_succ (procs : List ProcInfo) :
    ∀ (f k : Nat), escapesIn procs f k = true → escapesIn procs (f + 1) k = true := by
  intro f
  induction f with
  | zero => intro k h; simp [escapesIn] at h
  | succ f ih =>
    intro k h
    cases hl : lookupPid procs k with
    | none => simp [escapesIn, hl] at h
    | some kinfo =>
      cases hpl : lookupPid procs (ppidOf kinfo) with
      | none => simp [escapesIn, hl, hpl]
      | some q =>
        rw [escapesIn_eq_step procs (f + 1) k kinfo q hl hpl]
        rw [escapesIn_eq_step procs f k kinfo q hl hpl] at h
        exact ih _ h

theorem escapesIn_mono (procs : List ProcInfo) (f g k : Nat) (hfg : f ≤ g)
    (h : escapesIn procs f k = true) : escapesIn procs g k = true := by
  induction hfg with
  | refl => exact h
  | step _ ih => exact escapesIn_succ procs _ _ ih

theorem escape_to_root (procs : List ProcInfo) :
    ∀ (f p : Nat), escapesIn procs f p = true →
      ∃ d r rinfo, ancChain procs d r p = true ∧ lookupPid procs r = some rinfo ∧
        lookupPid procs (ppidOf rinfo) = none ∧ d + 1 ≤ f := by
  intro f
  induction f with
  | zero => intro p h; simp [escapesIn] at h
  | succ f ih =>
    intro p h
    cases hl : lookupPid procs p with
    | none => simp [escapesIn, hl] at h
    | some pinfo =>
      cases hpl : lookupPid procs (ppidOf pinfo) with
      | none => exact ⟨0, p, pinfo, by simp [ancChain], hl, hpl, by omega⟩
      | some _ =>
        have h' : escapesIn procs f (ppidOf pinfo) = true := by
          simpa only [escapesIn, hl, hpl] using h
        rcases ih (ppidOf pinfo) h' with ⟨d, r, rinfo, hchain, hr, hroot, hd⟩
        refine ⟨d + 1, r, rinfo, ?_, hr, hroot, by omega⟩
        simp only [ancChain, hl]
        exact hchain

theorem chain_to_escape (procs : List ProcInfo) :
    ∀ (d r k : Nat) (rinfo : ProcInfo), ancChain procs d r k = true →
      lookupPid procs r = some rinfo →
      lookupPid procs (ppidOf rinfo) = none →
      escapesIn procs (d + 1) k = true := by
  intro d
  induction d with
  | zero =>
    intro r k rinfo hch hr hroot
    rw [ancChain_zero_iff] at hch
    subst hch
    simp [escapesIn, hr, hroot]
  | succ d ih =>
    intro r k rinfo hch hr hroot
    cases hl : lookupPid procs k with
    | none => simp [ancChain, hl] at hch
    | some kinfo =>
      have hch' : ancChain procs d r (ppidOf kinfo) = true := by
        simpa only [ancChain, hl] using hch
      have hesc' := ih r (ppidOf kinfo) rinfo hch' hr hroot
      cases hpl : lookupPid procs (ppidOf kinfo) with
      | none => simp [escapesIn, hl, hpl]
      | some q =>
        rw [escapesIn_eq_step procs (d + 1) k kinfo q hl hpl]
        exact hesc'

theorem chain_next_some (procs : List ProcInfo)
    (d r p : Nat) (pinfo rinfo : ProcInfo)
    (hchain : ancChain procs (d + 1) r p = true)
    (hp : lookupPid procs p = some pinfo)
    (hr : lookupPid procs r = some rinfo) :
    ∃ q, lookupPid procs (ppidOf pinfo) = some q := by
  have hch' : ancChain procs d r (ppidOf pinfo) = true := by
    simpa only [ancChain, hp] using hchain
  cases d with
  | zero =>
    rw [ancChain_zero_iff] at hch'
    exact ⟨rinfo, hch' ▸ hr⟩
  | succ d' =>
    cases hq : lookupPid procs (ppidOf pinfo) with
    | some q => exact ⟨q, rfl⟩
    | none => simp [ancChain, hq] at hch'

/-! Soundness of the tree construction: every store node comes from a
dict record reached by a parent chain from the pid the recursion
started at. -/

theorem addTree_sound (procs : List ProcInfo)
    (hnd : (procs.map (fun p => p.pid)).Nodup) :
    ∀ (f pid0 : Nat) (par : Option Nat) (e : Entry), e ∈ addTree procs f par pid0 →
      ∃ d kinfo, d + 1 ≤ f ∧ ancChain procs d pid0 e.row.pid = true ∧
        lookupPid procs e.row.pid = some kinfo ∧ e.row = mkRow kinfo := by
  intro f
  induction f with
  | zero => intro pid0 par e h; simp [addTree] at h
  | succ f ih =>
    intro pid0 par e h
    have hchild : ∀ c ∈ childrenOf procs pid0, ∀ par2 : Option Nat,
        e ∈ addTree procs f par2 c →
        ∃ d kinfo, d + 1 ≤ f + 1 ∧ ancChain procs d pid0 e.row.pid = true ∧
          lookupPid procs e.row.pid = some kinfo ∧ e.row = mkRow kinfo := by
      intro c hc par2 he
      rcases ih c par2 e he with ⟨d, kinfo, hdf, hchain, hke, hrow⟩
      rcases (mem_childrenOf procs pid0 c).mp hc with ⟨crec, hcrec, hcpp, hcpid⟩
      have hlc : lookupPid procs c = some crec :=
        hcpid ▸ mem_lookupPid procs hnd crec hcrec
      have hone : ancChain procs 1 pid0 c = true := by
        simp [ancChain, hlc, hcpp]
      exact ⟨d + 1, kinfo, by omega,
        ancChain_append procs d 1 pid0 c e.row.pid hchain hone, hke, hrow⟩
    cases hl : lookupPid procs pid0 with
    | some info =>
      simp only [addTree, hl] at h
      rcases List.mem_cons.mp h with rfl | hsub
      · have hpid : info.pid = pid0 := (lookupPid_mem procs pid0 info hl).2
        refine ⟨0, info, by omega, ?_, ?_, rfl⟩
        · show ancChain procs 0 pid0 (mkRow info).pid = true
          simp [ancChain, mkRow, hpid]
        · show lookupPid procs (mkRow info).pid = some info
          simp [mkRow, hpid, hl]
      · rcases List.mem_flatMap.mp hsub with ⟨c, hc, he⟩
        exact hchild c hc (some pid0) he
    | none =>
      simp only [addTree, hl] at h
      rcases List.mem_flatMap.mp h with ⟨c, hc, he⟩
      exact hchild c hc none he

/-! Completeness of the tree construction: a record whose parent chain
reaches the recursion entry point appears in the produced node list,
with its parent column determined by its position on the chain. -/

theorem addTree_down (procs : List ProcInfo) :
    ∀ (d a p : Nat) (ainfo pinfo : ProcInfo) (par : Option Nat) (g : Nat),
      lookupPid procs a = some ainfo → ancChain procs d a p = true →
      lookupPid procs p = some pinfo →
      Entry.mk (mkRow pinfo) (if d = 0 then par else some (ppidOf pinfo)) ∈
        addTree procs (d + g + 1) par a := by
  intro d
  induction d with
  | zero =>
    intro a p ainfo pinfo par g ha hchain hp
    rw [ancChain_zero_iff] at hchain
    subst hchain
    rw [ha] at hp
    injection hp with hpe
    subst hpe
    simp only [addTree, ha, if_pos rfl]
    exact List.mem_cons_self _ _
  | succ d ih =>
    intro a p ainfo pinfo par g ha hchain hp
    rcases ancChain_peel procs d a p hchain with ⟨c, cinfo, hc, hcpp, hchain2⟩
    have hcmem : c ∈ childrenOf procs a := by
      rcases lookupPid_mem procs c cinfo hc with ⟨hcin, hcpid⟩
      exact (mem_childrenOf procs a c).mpr ⟨cinfo, hcin, hcpp, hcpid⟩
    have hmem := ih c p cinfo pinfo (some a) g hc hchain2 hp
    have hpar : (if d = 0 then some a else some (ppidOf pinfo)) = some (ppidOf pinfo) := by
      cases d with
      | zero =>
        rw [ancChain_zero_iff] at hchain2
        subst hchain2
        rw [hp] at hc
        injection hc with hce
        subst hce
        rw [if_pos rfl, hcpp]
      | succ d' => rw [if_neg (by omega)]
    rw [hpar] at hmem
    have harith : d + 1 + g + 1 = d + (g + 1) + 1 := by omega
    rw [harith]
    simp only [addTree, ha]
    refine List.mem_cons_of_mem _ (List.mem_flatMap.mpr ⟨c, hcmem, ?_⟩)
    rw [if_neg (by omega)]
    exact hmem

/-! Two parent chains ending at the same pid and starting at two
children of one call point, or at two roots, must start at the same
place: parents are unique, and escaping records lie on no cycle. -/

theorem chain_meet_le (procs : List ProcInfo)
    (hnd : (procs.map (fun p => p.pid)).Nodup)
    (pid0 c c' k d d' : Nat)
    (hesc : lookupPid procs pid0 = none ∨ ∃ g, escapesIn procs g pid0 = true)
    (hc : c ∈ childrenOf procs pid0) (hc' : c' ∈ childrenOf procs pid0)
    (hd : d ≤ d')
    (hch : ancChain procs d c k = true) (hch' : ancChain procs d' c' k = true) :
    c = c' := by
  have hsum : ancChain procs (d + (d' - d)) c' k = true := by
    rwa [Nat.add_sub_cancel' hd]
  have hclimb : ancChain procs (d' - d) c' c = true :=
    ancChain_climb procs d (d' - d) c c' k hch hsum
  rcases (mem_childrenOf procs pid0 c).mp hc with ⟨crec, hcrec, hcpp, hcpid⟩
  rcases (mem_childrenOf procs pid0 c').mp hc' with ⟨crec', hcrec', hcpp', hcpid'⟩
  have hlc : lookupPid procs c = some crec :=
    hcpid ▸ mem_lookupPid procs hnd crec hcrec
  have hlc' : lookupPid procs c' = some crec' :=
    hcpid' ▸ mem_lookupPid procs hnd crec' hcrec'
  cases he : d' - d with
  | zero =>
    rw [he, ancChain_zero_iff] at hclimb
    exact hclimb.symm
  | succ e =>
    rw [he] at hclimb
    have hch2 : ancChain procs e c' (ppidOf crec) = true := by
      simpa only [ancChain, hlc] using hclimb
    rw [hcpp] at hch2
    cases e with
    | zero =>
      rw [ancChain_zero_iff] at hch2
      subst hch2
      rcases hesc with hnone | ⟨g, hg⟩
      · rw [hnone] at hlc'
        cases hlc'
      · have hcyc : ancChain procs 1 c' c' = true := by
          simp [ancChain, hlc', hcpp']
        have h0 := escape_no_cycle procs g 1 c' hg hcyc
        cases h0
    | succ e' =>
      rcases hesc with hnone | ⟨g, hg⟩
      · simp [ancChain, hnone] at hch2
      · have hone : ancChain procs 1 pid0 c' = true := by
          simp [ancChain, hlc', hcpp']
        have hcyc := ancChain_append procs (e' + 1) 1 pid0 c' pid0 hch2 hone
        have h0 := escape_no_cycle procs g (e' + 1 + 1) pid0 hg hcyc
        cases h0

theorem root_meet_le (procs : List ProcInfo)
    (r r' k d d' : Nat) (rinfo rinfo' : ProcInfo)
    (hr : lookupPid procs r = some rinfo)
    (hroot : lookupPid procs (ppidOf rinfo) = none)
    (hr' : lookupPid procs r' = some rinfo')
    (hd : d ≤ d')
    (hch : ancChain procs d r k = true) (hch' : ancChain procs d' r' k = true) :
    r = r' := by
  have hsum : ancChain procs (d + (d' - d)) r' k = true := by
    rwa [Nat.add_sub_cancel' hd]
  have hclimb : ancChain procs (d' - d) r' r = true :=
    ancChain_climb procs d (d' - d) r r' k hch hsum
  cases he : d' - d with
  | zero =>
    rw [he, ancChain_zero_iff] at hclimb
    exact hclimb.symm
  | succ e =>
    rw [he] at hclimb
    have hch2 : ancChain procs e r' (ppidOf rinfo) = true := by
      simpa only [ancChain, hr] using hclimb
    cases e with
    | zero =>
      rw [ancChain_zero_iff] at hch2
      rw [← hch2, hr'] at hroot
      cases hroot
    | succ e' => simp [ancChain, hroot] at hch2

/-! No pid is appended twice: subtrees of distinct children are
disjoint and an escaping call point never reappears below itself. -/

theorem addTree_nodup (procs : List ProcInfo)
    (hnd : (procs.map (fun p => p.pid)).Nodup) :
    ∀ (f pid0 : Nat) (par : Option Nat),
      (lookupPid procs pid0 = none ∨ ∃ g, escapesIn procs g pid0 = true) →
      ((addTree procs f par pid0).map (fun e => e.row.pid)).Nodup := by
  intro f
  induction f with
  | zero => intro pid0 par _; simp [addTree]
  | succ f ih =>
    intro pid0 par hesc
    have hchild : ∀ c ∈ childrenOf procs pid0,
        lookupPid procs c = none ∨ ∃ g, escapesIn procs g c = true := by
      intro c hc
      rcases (mem_childrenOf procs pid0 c).mp hc with ⟨crec, hcrec, hcpp, hcpid⟩
      have hlc : lookupPid procs c = some crec :=
        hcpid ▸ mem_lookupPid procs hnd crec hcrec
      right
      rcases hesc with hnone | ⟨g, hg⟩
      · exact ⟨1, by simp [escapesIn, hlc, hcpp, hnone]⟩
      · cases hl0 : lookupPid procs pid0 with
        | none => exact ⟨1, by simp [escapesIn, hlc, hcpp, hl0]⟩
        | some i0 =>
          refine ⟨g + 1, ?_⟩
          have hstep := escapesIn_eq_step procs g c crec i0 hlc (by rw [hcpp]; exact hl0)
          rw [hstep, hcpp]
          exact hg
    have hforest : ∀ par2 : Option Nat,
        (((childrenOf procs pid0).flatMap
            (fun c => addTree procs f par2 c)).map (fun e => e.row.pid)).Nodup := by
      intro par2
      rw [List.map_flatMap, List.nodup_flatMap]
      refine ⟨fun c hc => ih c par2 (hchild c hc), ?_⟩
      refine (childrenOf_nodup procs hnd pid0).pairwise_of_forall_ne ?_
      intro c hc c' hc' hne
      intro k hk hk'
      rcases List.mem_map.mp hk with ⟨e, he, hpe⟩
      rcases List.mem_map.mp hk' with ⟨e', he2, hpe2⟩
      rcases addTree_sound procs hnd f c par2 e he with ⟨d, _, _, hchain, _, _⟩
      rcases addTree_sound procs hnd f c' par2 e' he2 with ⟨d', _, _, hchain2, _, _⟩
      rw [hpe] at hchain
      rw [hpe2] at hchain2
      rcases Nat.le_total d d' with hle | hle
      · exact hne (chain_meet_le procs hnd pid0 c c' k d d' hesc hc hc' hle hchain hchain2)
      · exact hne
          (chain_meet_le procs hnd pid0 c' c k d' d hesc hc' hc hle hchain2 hchain).symm
    cases hl : lookupPid procs pid0 with
    | none =>
      simp only [addTree, hl]
      exact hforest none
    | some info =>
      simp only [addTree, hl, List.map_cons, List.nodup_cons]
      refine ⟨?_, hforest (some pid0)⟩
      intro hmem
      have hpid : info.pid = pid0 := (lookupPid_mem procs pid0 info hl).2
      rcases List.mem_map.mp hmem with ⟨e, he, hpe⟩
      rcases List.mem_flatMap.mp he with ⟨c, hc, hec⟩
      rcases addTree_sound procs hnd f c (some pid0) e hec with ⟨d, _, _, hchain, _, _⟩
      rcases (mem_childrenOf procs pid0 c).mp hc with ⟨crec, hcrec, hcpp, hcpid⟩
      have hlc : lookupPid procs c = some crec :=
        hcpid ▸ mem_lookupPid procs hnd crec hcrec
      have hone : ancChain procs 1 pid0 c = true := by
        simp [ancChain, hlc, hcpp]
      have hepid : e.row.pid = pid0 := by
        rw [hpe]
        show (mkRow info).pid = pid0
        simp [mkRow, hpid]
      rw [hepid] at hchain
      have hcyc := ancChain_append procs d 1 pid0 c pid0 hchain hone
      rcases hesc with hnone | ⟨g, hg⟩
      · rw [hnone] at hl
        cases hl
      · have h0 := escape_no_cycle procs g (d + 1) pid0 hg hcyc
        cases h0

/-! Store-level consequences. -/

theorem buildStore_nodup (procs : List ProcInfo)
    (hnd : (procs.map (fun p => p.pid)).Nodup) : (storePids procs).Nodup := by
  unfold storePids buildStore
  rw [List.map_flatMap, List.nodup_flatMap]
  constructor
  · intro r hr
    have hrroot : r ∈ rootsOf procs := ((List.perm_insertionSort _ _).mem_iff).mp hr
    rcases (mem_rootsOf procs r).mp hrroot with ⟨rrec, hrin, hrpid, hrnone⟩
    have hlr : lookupPid procs r = some rrec :=
      hrpid ▸ mem_lookupPid procs hnd rrec hrin
    exact addTree_nodup procs hnd procs.length r none
      (Or.inr ⟨1, by simp [escapesIn, hlr, hrnone]⟩)
  · refine (sortedRoots_nodup procs hnd).pairwise_of_forall_ne ?_
    intro r hr r' hr' hne
    intro k hk hk'
    rcases List.mem_map.mp hk with ⟨e, he, hpe⟩
    rcases List.mem_map.mp hk' with ⟨e', he2, hpe2⟩
    rcases addTree_sound procs hnd procs.length r none e he with ⟨d, _, _, hchain, _, _⟩
    rcases addTree_sound procs hnd procs.length r' none e' he2 with ⟨d', _, _, hchain2, _, _⟩
    rw [hpe] at hchain
    rw [hpe2] at hchain2
    have hrroot : r ∈ rootsOf procs := ((List.perm_insertionSort _ _).mem_iff).mp hr
    have hrroot2 : r' ∈ rootsOf procs := ((List.perm_insertionSort _ _).mem_iff).mp hr'
    rcases (mem_rootsOf procs r).mp hrroot with ⟨rrec, hrin, hrpid, hrnone⟩
    rcases (mem_rootsOf procs r').mp hrroot2 with ⟨rrec', hrin2, hrpid2, hrnone2⟩
    have hlr : lookupPid procs r = some rrec :=
      hrpid ▸ mem_lookupPid procs hnd rrec hrin
    have hlr2 : lookupPid procs r' = some rrec' :=
      hrpid2 ▸ mem_lookupPid procs hnd rrec' hrin2
    rcases Nat.le_total d d' with hle | hle
    · exact hne
        (root_meet_le procs r r' k d d' rrec rrec' hlr hrnone hlr2 hle hchain hchain2)
    · exact hne
        (root_meet_le procs r' r k d' d rrec' rrec hlr2 hrnone2 hlr hle hchain2 hchain).symm

theorem buildStore_sound (procs : List ProcInfo)
    (hnd : (procs.map (fun p => p.pid)).Nodup) (e : Entry) (he : e ∈ buildStore procs) :
    ∃ kinfo, lookupPid procs e.row.pid = some kinfo ∧ e.row = mkRow kinfo ∧
      escapesIn procs procs.length e.row.pid = true := by
  rcases List.mem_flatMap.mp he with ⟨r, hrs, hmem⟩
  have hrroot : r ∈ rootsOf procs := ((List.perm_insertionSort _ _).mem_iff).mp hrs
  rcases (mem_rootsOf procs r).mp hrroot with ⟨rrec, hrin, hrpid, hrnone⟩
  have hlr : lookupPid procs r = some rrec :=
    hrpid ▸ mem_lookupPid procs hnd rrec hrin
  rcases addTree_sound procs hnd procs.length r none e hmem with
    ⟨d, kinfo, hdf, hchain, hke, hrow⟩
  have hesc := chain_to_escape procs d r e.row.pid rrec hchain hlr hrnone
  exact ⟨kinfo, hke, hrow,
    escapesIn_mono procs (d + 1) procs.length e.row.pid (by omega) hesc⟩

theorem buildStore_complete (procs : List ProcInfo)
    (hnd : (procs.map (fun p => p.pid)).Nodup) (p : ProcInfo) (hp : p ∈ procs)
    (hesc : escapesIn procs procs.length p.pid = true) :
    Entry.mk (mkRow p) (parentFor procs p) ∈ buildStore procs := by
  rcases escape_to_root procs procs.length p.pid hesc with
    ⟨d, r, rinfo, hchain, hr, hroot, hd⟩
  have hlp : lookupPid procs p.pid = some p := mem_lookupPid procs hnd p hp
  have hmem := addTree_down procs d r p.pid rinfo p none
    (procs.length - (d + 1)) hr hchain hlp
  have hg : d + (procs.length - (d + 1)) + 1 = procs.length := by omega
  rw [hg] at hmem
  have hpar : (if d = 0 then (none : Option Nat) else some (ppidOf p)) =
      parentFor procs p := by
    cases d with
    | zero =>
      rw [ancChain_zero_iff] at hchain
      subst hchain
      rw [hlp] at hr
      injection hr with hre
      subst hre
      rw [if_pos rfl]
      simp [parentFor, hroot]
    | succ d' =>
      rcases chain_next_some procs d' r p.pid p rinfo hchain hlp hr with ⟨q, hq⟩
      rw [if_neg (by omega)]
      simp [parentFor, hq]
  rw [hpar] at hmem
  have hrsort : r ∈ sortedRoots procs := by
    apply ((List.perm_insertionSort _ _).mem_iff).mpr
    rcases lookupPid_mem procs r rinfo hr with ⟨hrin, hrpid⟩
    exact (mem_rootsOf procs r).mpr ⟨rinfo, hrin, hrpid, hroot⟩
  exact List.mem_flatMap.mpr ⟨r, hrsort, hmem⟩

/-- Claim C1 (amended): in a snapshot with one record per pid, a
record whose ppid is absent from the snapshot (including ppid 0)
becomes a top-level root of the rebuilt tree; a record whose ppid is
present is placed as a child of the node of that ppid provided its
ancestor chain reaches a root. A record whose chain never leaves the
snapshot (a ppid cycle) is omitted, so the unamended second half fails
on cyclic snapshots. -/
theorem roots_and_children_placement (procs : List ProcInfo)
    (hnd : (procs.map (fun p => p.pid)).Nodup) :
    (∀ p ∈ procs, lookupPid procs (ppidOf p) = none →
      Entry.mk (mkRow p) none ∈ buildStore procs) ∧
    (∀ p ∈ procs, ∀ q : ProcInfo, lookupPid procs (ppidOf p) = some q →
      escapesIn procs procs.length p.pid = true →
      Entry.mk (mkRow p) (some (ppidOf p)) ∈ buildStore procs) := by
  constructor
  · intro p hp hnone
    have h1 : escapesIn procs 1 p.pid = true := by
      simp [escapesIn, mem_lookupPid procs hnd p hp, hnone]
    have hL : 1 ≤ procs.length := List.length_pos_of_mem hp
    have hmem := buildStore_complete procs hnd p hp
      (escapesIn_mono procs 1 procs.length p.pid hL h1)
    have hpar : parentFor procs p = none := by simp [parentFor, hnone]
    rwa [hpar] at hmem
  · intro p hp q hq hesc
    have hmem := buildStore_complete procs hnd p hp hesc
    have hpar : parentFor procs p = some (ppidOf p) := by simp [parentFor, hq]
    rwa [hpar] at hmem

/-- Witness for the amended claim C1: in the two-record snapshot the
record with absent ppid is a top-level node and the other record is a
child of it. -/
theorem roots_and_children_placement_witness :
    Entry.mk (mkRow infoInit) none ∈ buildStore procsSmall ∧
    Entry.mk (mkRow infoBash) (some (ppidOf infoBash)) ∈ buildStore procsSmall :=
  ⟨(roots_and_children_placement procsSmall (by decide)).1 infoInit
      (by simp [procsSmall]) rfl,
   (roots_and_children_placement procsSmall (by decide)).2 infoBash
      (by simp [procsSmall]) infoInit rfl (by decide)⟩

/-- Claim C1 counterexample: a record that is its own parent has its
ppid present in the snapshot, yet the rebuilt tree holds no node for
it at all, so it is not placed as a child of the node of its ppid. -/
theorem self_parent_record_dropped :
    infoSelf ∈ procsSelfCycle ∧
    lookupPid procsSelfCycle (ppidOf infoSelf) = some infoSelf ∧
    ¬ ∃ e ∈ buildStore procsSelfCycle, e.row = mkRow infoSelf := by
  refine ⟨by simp [procsSelfCycle], rfl, ?_⟩
  have h : buildStore procsSelfCycle = [] := rfl
  simp [h]

/-- Claim C3 (amended): for a snapshot with one record per pid whose
records all have terminating ancestor chains, the rebuilt store holds
exactly one node per record and nothing else; in general every store
node has a terminating ancestor chain, so records caught in ppid
cycles are omitted rather than shown, and the unamended claim fails on
cyclic snapshots. -/
theorem store_reflects_snapshot (procs : List ProcInfo)
    (hnd : (procs.map (fun p => p.pid)).Nodup) :
    ((∀ p ∈ procs, escapesIn procs procs.length p.pid = true) →
      ((buildStore procs).map (fun e => e.row)).Perm (procs.map mkRow)) ∧
    (∀ k ∈ storePids procs, escapesIn procs procs.length k = true) := by
  constructor
  · intro hall
    have hpids : (storePids procs).Perm (procs.map (fun p => p.pid)) := by
      rw [List.perm_ext_iff_of_nodup (buildStore_nodup procs hnd) hnd]
      intro k
      unfold storePids
      constructor
      · intro hk
        rcases List.mem_map.mp hk with ⟨e, he, hpe⟩
        rcases buildStore_sound procs hnd e he with ⟨kinfo, hke, _, _⟩
        rcases lookupPid_mem procs e.row.pid kinfo hke with ⟨hkin, hkpid⟩
        rw [← hpe, ← hkpid]
        exact List.mem_map_of_mem _ hkin
      · intro hk
        rcases List.mem_map.mp hk with ⟨p, hp, hpe⟩
        have hmem := buildStore_complete procs hnd p hp (hall p hp)
        apply List.mem_map.mpr
        refine ⟨Entry.mk (mkRow p) (parentFor procs p), hmem, ?_⟩
        show (mkRow p).pid = k
        rw [← hpe]
        rfl
    have h1 : (buildStore procs).map (fun e => e.row) =
        (storePids procs).map (rowOfPid procs) := by
      unfold storePids
      rw [List.map_map]
      apply List.map_congr_left
      intro e he
      rcases buildStore_sound procs hnd e he with ⟨kinfo, hke, hrow, _⟩
      show e.row = rowOfPid procs e.row.pid
      conv_lhs => rw [hrow]
      simp [rowOfPid, hke]
    have h2 : procs.map mkRow = (procs.map (fun p => p.pid)).map (rowOfPid procs) := by
      rw [List.map_map]
      apply List.map_congr_left
      intro p hp
      show mkRow p = rowOfPid procs p.pid
      simp [rowOfPid, mem_lookupPid procs hnd p hp]
    rw [h1, h2]
    exact hpids.map (rowOfPid procs)
  · intro k hk
    unfold storePids at hk
    rcases List.mem_map.mp hk with ⟨e, he, hpe⟩
    rcases buildStore_sound procs hnd e he with ⟨_, _, _, hesc⟩
    rwa [hpe] at hesc

/-- Witness for the amended claim C3: on the two-record snapshot the
store rows are a permutation of the rows of the records, and the store
pid 1 has a terminating ancestor chain. -/
theorem store_reflects_snapshot_witness :
    ((buildStore procsSmall).map (fun e => e.row)).Perm (procsSmall.map mkRow) ∧
    escapesIn procsSmall procsSmall.length 1 = true :=
  ⟨(store_reflects_snapshot procsSmall (by decide)).1 (by decide),
   (store_reflects_snapshot procsSmall (by decide)).2 1 (by decide)⟩

/-- Claim C3 counterexample: a snapshot made of a mutual parent cycle
yields an empty rebuilt store, so not every snapshot record appears as
a node: the tree does not reflect this poll. -/
theorem cycle_records_missing_from_store :
    infoCycA ∈ procsMutualCycle ∧
    buildStore procsMutualCycle = [] ∧
    ¬ ∀ p ∈ procsMutualCycle, ∃ e ∈ buildStore procsMutualCycle, e.row = mkRow p := by
  refine ⟨by simp [procsMutualCycle], rfl, ?_⟩
  intro hall
  rcases hall infoCycA (by simp [procsMutualCycle]) with ⟨e, he, _⟩
  rw [show buildStore procsMutualCycle = [] from rfl] at he
  cases he

end ProcessExplorer
